import Mathlib

/-! Verification of the core ledger/consensus engine of `cryptomark_node1.py`
(a single-node blockchain: block construction, canonical hashing,
proof-of-work search, chain validation and longest-chain replacement).

The SHA-256 primitive is kept abstract as a parameter `sha : String → String`:
every statement that depends on the hash function is proved for an arbitrary
(or, where needed, injective) `sha`.  All other code is embedded concretely:

* `Block`, `Transaction`, `Blockchain` mirror the Python dictionaries and the
  `Blockchain` object state (`chain`, `transactions`, `nodes`).
* `create_block`, `get_previous_block`, `proof_of_work`, `hash`,
  `is_chain_valid`, `replace_chain` are the methods of the `Blockchain` class.
  Nondeterministic inputs (the timestamp `datetime.datetime.now()`, and the
  peer responses fetched over HTTP in `replace_chain`) are passed explicitly.
* The Python `while` loop of `proof_of_work` (increment `new_proof` starting
  from 1 until the difficulty predicate holds) is embedded as the least
  witness of the predicate, which is exactly the loop's denotation; it is
  defined only under the assumption that a solution exists, since the loop
  does not terminate otherwise.
* `chain[0]` on an empty list raises `IndexError`; `is_chain_valid` is
  therefore `Option`-valued, `none` marking the raised exception.
* `json.dumps(block, sort_keys=True)` is embedded character-for-character
  (sorted keys, `", "`/`": "` separators, `ensure_ascii` escaping).
-/

namespace Cryptomark

/-- One pending transaction, as built by `add_transaction`:
a dictionary with keys `sender`, `receiver`, `amount`.
The `amount` is opaque to the core; it is modelled as a string. -/
structure Transaction where
  sender : String
  receiver : String
  amount : String
deriving DecidableEq

/-- One block of the chain, as built by `create_block`: a dictionary with
keys `index`, `timestamp`, `proof`, `previous_hash`, `transactions`. -/
structure Block where
  index : Int
  timestamp : String
  proof : Int
  previous_hash : String
  transactions : List Transaction
deriving DecidableEq

/-- The mutable state of a `Blockchain` object: the chain, the pending
transaction pool and the registered peer addresses. -/
structure Blockchain where
  chain : List Block
  transactions : List Transaction
  nodes : List String
deriving DecidableEq

/-- Method `create_block(self, proof, previous_hash)`.  The timestamp
`str(datetime.datetime.now())` is an external input and is passed
explicitly.  Returns the new block together with the updated state:
the block is appended to `chain` and the pending pool is cleared. -/
def create_block (bc : Blockchain) (proof : Int) (previous_hash : String)
    (timestamp : String) : Block × Blockchain :=
  let block : Block :=
    { index := (bc.chain.length : Int) + 1
      timestamp := timestamp
      proof := proof
      previous_hash := previous_hash
      transactions := bc.transactions }
  (block, { bc with transactions := [], chain := bc.chain ++ [block] })

/-- Constructor `__init__`: empty chain and pool, then
`create_block(proof=1, previous_hash="0")`, then `nodes = set()`. -/
def Blockchain.init (timestamp : String) : Blockchain :=
  (create_block { chain := [], transactions := [], nodes := [] } 1 "0" timestamp).2

/-- Method `get_previous_block`: returns `chain[-1]`.  Python list indexing
raises `IndexError` on an empty list, hence the `Option`. -/
def get_previous_block (bc : Blockchain) : Option Block :=
  bc.chain.getLast?

/-- The difficulty predicate shared by `proof_of_work` and `is_chain_valid`:
`hashlib.sha256(str(new_proof**2 - previous_proof**2).encode()).hexdigest()[:4] == "0000"`. -/
def check_proof (sha : String → String) (previous_proof new_proof : Int) : Bool :=
  (sha (toString (new_proof ^ 2 - previous_proof ^ 2))).take 4 == "0000"

/-- Method `proof_of_work(self, previous_proof)`: the `while` loop starts at
`new_proof = 1` and increments until `check_proof` holds, so it denotes the
least `n ≥ 1` satisfying the predicate; the hypothesis `h` records that the
search terminates. -/
def proof_of_work (sha : String → String) (previous_proof : Int)
    (h : ∃ n : Nat, 1 ≤ n ∧ check_proof sha previous_proof (n : Int) = true) : Int :=
  (Nat.find h : Int)

/-- Lowercase hex rendering of `n < 0x10000` on exactly four digits, as in
Python's `"\u0000"`-style `%04x` escapes. -/
def hex4 (n : Nat) : List Char :=
  [Nat.digitChar (n / 4096 % 16), Nat.digitChar (n / 256 % 16),
   Nat.digitChar (n / 16 % 16), Nat.digitChar (n % 16)]

/-- Escaping of one character by `json.dumps` (default `ensure_ascii=True`):
`"` and `\` are backslash-escaped, the five control characters
BS HT LF FF CR get their short escapes, printable ASCII is kept verbatim,
every other character becomes `\uXXXX` (a surrogate pair beyond the BMP). -/
def escChar (c : Char) : List Char :=
  if c = '"' then ['\\', '"']
  else if c = '\\' then ['\\', '\\']
  else if c = '\n' then ['\\', 'n']
  else if c = '\t' then ['\\', 't']
  else if c = '\r' then ['\\', 'r']
  else if c.toNat = 8 then ['\\', 'b']
  else if c.toNat = 12 then ['\\', 'f']
  else if 32 ≤ c.toNat ∧ c.toNat ≤ 126 then [c]
  else if c.toNat < 65536 then '\\' :: 'u' :: hex4 c.toNat
  else
    '\\' :: 'u' :: hex4 (55296 + (c.toNat - 65536) / 1024) ++
      '\\' :: 'u' :: hex4 (56320 + (c.toNat - 65536) % 1024)

/-- JSON escaping of a whole string body (without the surrounding quotes). -/
def escList : List Char → List Char
  | [] => []
  | c :: cs => escChar c ++ escList cs

/-- Characters of the serialization of one transaction dictionary,
keys sorted (`amount`, `receiver`, `sender`), `", "`/`": "` separators. -/
def encTxL (t : Transaction) : List Char :=
  "\x7b\"amount\": \"".data ++ escList t.amount.data ++
    "\", \"receiver\": \"".data ++ escList t.receiver.data ++
    "\", \"sender\": \"".data ++ escList t.sender.data ++ "\"\x7d".data

/-- Tail of a serialized transaction list: `", "` before every element
after the first. -/
def encTxsTail : List Transaction → List Char
  | [] => []
  | t :: ts => ", ".data ++ encTxL t ++ encTxsTail ts

/-- Characters of the serialization of the transaction list. -/
def encTxsL : List Transaction → List Char
  | [] => "[]".data
  | t :: ts => "[".data ++ encTxL t ++ encTxsTail ts ++ "]".data

/-- Characters of `json.dumps(block, sort_keys=True)`: keys sorted
(`index`, `previous_hash`, `proof`, `timestamp`, `transactions`). -/
def encBlockL (b : Block) : List Char :=
  "\x7b\"index\": ".data ++ (toString b.index).data ++
    ", \"previous_hash\": \"".data ++ escList b.previous_hash.data ++
    "\", \"proof\": ".data ++ (toString b.proof).data ++
    ", \"timestamp\": \"".data ++ escList b.timestamp.data ++
    "\", \"transactions\": ".data ++ encTxsL b.transactions ++ "\x7d".data

/-- The canonical byte encoding `json.dumps(block, sort_keys=True).encode()`
fed to SHA-256 by `hash`. -/
def encBlock (b : Block) : String :=
  String.mk (encBlockL b)

/-- Method `hash(self, block)`:
`hashlib.sha256(json.dumps(block, sort_keys=True).encode()).hexdigest()`. -/
def hash (sha : String → String) (block : Block) : String :=
  sha (encBlock block)

/-- The `while` loop of `is_chain_valid`, walking the chain from index 1 with
`previous_block` one step behind: returns `false` on the first block whose
`previous_hash` or proof-of-work check fails, `true` if the walk completes. -/
def valid_from (sha : String → String) : Block → List Block → Bool
  | _, [] => true
  | previous_block, block :: rest =>
    if block.previous_hash != hash sha previous_block then false
    else if check_proof sha previous_block.proof block.proof = false then false
    else valid_from sha block rest

/-- Method `is_chain_valid(self, chain)`.  `previous_block = chain[0]` raises
`IndexError` on an empty chain, modelled by `none`. -/
def is_chain_valid (sha : String → String) (chain : List Block) : Option Bool :=
  match chain with
  | [] => none
  | previous_block :: rest => some (valid_from sha previous_block rest)

/-- Outcome of one peer fetch in `replace_chain`: a non-200 status (or an
unreachable peer) contributes nothing; a 200 response carries the reported
`length` field and the `chain` field of the peer's JSON. -/
inductive FetchResult where
  | failure : FetchResult
  | success (length : Int) (chain : List Block) : FetchResult
deriving DecidableEq

/-- The `for node in network` loop of `replace_chain`, folding over the peer
responses with the running `longest_chain` and `max_length`; `none` marks the
`IndexError` escaping from `is_chain_valid` on an empty candidate. -/
def scan_peers (sha : String → String) :
    List FetchResult → Option (List Block) → Int → Option (Option (List Block) × Int)
  | [], longest_chain, max_length => some (longest_chain, max_length)
  | FetchResult.failure :: rest, longest_chain, max_length =>
    scan_peers sha rest longest_chain max_length
  | FetchResult.success length chain :: rest, longest_chain, max_length =>
    if length > max_length then
      match is_chain_valid sha chain with
      | none => none
      | some true => scan_peers sha rest (some chain) length
      | some false => scan_peers sha rest longest_chain max_length
    else scan_peers sha rest longest_chain max_length

/-- Method `replace_chain(self)`.  The HTTP fetches are passed as the list of
per-peer outcomes (in the set-iteration order of `self.nodes`).  The final
`if longest_chain:` is Python truthiness: both `None` and `[]` are falsy. -/
def replace_chain (sha : String → String) (bc : Blockchain)
    (responses : List FetchResult) : Option (Bool × Blockchain) :=
  match scan_peers sha responses none (bc.chain.length : Int) with
  | none => none
  | some (some longest_chain, _) =>
    if longest_chain.isEmpty then some (false, bc)
    else some (true, { bc with chain := longest_chain })
  | some (none, _) => some (false, bc)

/-- Last element of `p :: l`, the value `previous_block` holds after the
validation walk (and the value `get_previous_block` returns on `p :: l`). -/
def lastD (p : Block) : List Block → Block
  | [] => p
  | b :: bs => lastD b bs

/-- The two per-block conditions `is_chain_valid` tests between consecutive
blocks: the stored back-link equals the recomputed hash of the predecessor,
and the proof-of-work predicate holds between the two stored proofs. -/
def linkOk (sha : String → String) (previous_block block : Block) : Bool :=
  (block.previous_hash == hash sha previous_block) &&
    check_proof sha previous_block.proof block.proof

/-- The hash-link half of the chain invariant:
`chain[i].previous_hash == hash(chain[i-1])` for every `i > 0`. -/
def hashLinkInv (sha : String → String) (chain : List Block) : Prop :=
  List.Chain' (fun a b => b.previous_hash = hash sha a) chain

/-- Canonical indices: `chain[i].index == i + 1` for every position, i.e. the
stored indices are exactly `1, 2, …, len(chain)`; `create_block` maintains
this shape because it stores `len(self.chain) + 1`. -/
def canonicalIdx (chain : List Block) : Prop :=
  chain.map Block.index = (List.range' 1 chain.length).map Int.ofNat

instance (chain : List Block) : Decidable (canonicalIdx chain) :=
  inferInstanceAs (Decidable (_ = _))

instance (sha : String → String) (chain : List Block) : Decidable (hashLinkInv sha chain) := by
  unfold hashLinkInv
  haveI : DecidableRel (fun a b : Block => b.previous_hash = hash sha a) :=
    fun a b => String.decEq _ _
  infer_instance

/-- The ledgers reachable by constructing a fresh `Blockchain` and then
alternating `proof_of_work` on the previous block's proof with
`create_block(proof, hash(previous_block))` — the `/mine_block` flow. -/
inductive Built (sha : String → String) : Blockchain → Prop where
  | start (ts : String) : Built sha (Blockchain.init ts)
  | mine (bc : Blockchain) (ts : String) (prev : Block) (hb : Built sha bc)
      (hprev : get_previous_block bc = some prev)
      (hex : ∃ n : Nat, 1 ≤ n ∧ check_proof sha prev.proof (n : Int) = true) :
      Built sha (create_block bc (proof_of_work sha prev.proof hex) (hash sha prev) ts).2

/-- A degenerate stand-in for the abstract SHA-256 parameter, used to
instantiate hypotheses at concrete inputs: every digest is `"0000"`, so the
difficulty predicate always holds. -/
def sha0 : String → String := fun _ => "0000"

/-- The identity function as a stand-in for the abstract SHA-256 parameter:
trivially injective, so collision-dependent statements can be instantiated. -/
def shaId : String → String := fun s => s

/-- The genesis block of a ledger constructed at timestamp `"t0"`. -/
def gen0 : Block :=
  { index := 1, timestamp := "t0", proof := 1, previous_hash := "0", transactions := [] }

/-- An arbitrary block whose fields differ from the genesis values. -/
def blkX : Block :=
  { index := 7, timestamp := "x", proof := 3, previous_hash := "p", transactions := [] }

/-! Decoders for the canonical serialization

The following parsers are proof machinery only: they invert `encBlockL`
(round-trip lemmas below), which shows the canonical serialization is
injective — the substance of the `hash` contract. -/

/-- Consume an expected literal, returning the rest of the input. -/
def parseLit : List Char → List Char → Option (List Char)
  | [], l => some l
  | _ :: _, [] => none
  | c :: cs, x :: xs => if x = c then parseLit cs xs else none

/-- Value of a string of decimal digits. -/
def digitsVal (l : List Char) : Nat :=
  l.foldl (fun a c => 10 * a + (c.toNat - 48)) 0

/-- Parse a (possibly negative) decimal integer, maximal munch. -/
def parseInt (l : List Char) : Option (Int × List Char) :=
  match l with
  | [] => none
  | c :: r =>
    if c = '-' then
      if r.takeWhile Char.isDigit = [] then none
      else some (-(digitsVal (r.takeWhile Char.isDigit) : Int), r.dropWhile Char.isDigit)
    else
      if l.takeWhile Char.isDigit = [] then none
      else some ((digitsVal (l.takeWhile Char.isDigit) : Int), l.dropWhile Char.isDigit)

/-- Value of one lowercase hexadecimal digit. -/
def readHexDigit (c : Char) : Option Nat :=
  if 48 ≤ c.toNat ∧ c.toNat ≤ 57 then some (c.toNat - 48)
  else if 97 ≤ c.toNat ∧ c.toNat ≤ 102 then some (c.toNat - 87)
  else none

/-- Read four hexadecimal digits. -/
def readHex4 : List Char → Option (Nat × List Char)
  | a :: b :: c :: d :: r =>
    match readHexDigit a, readHexDigit b, readHexDigit c, readHexDigit d with
    | some x, some y, some z, some w => some (4096 * x + 256 * y + 16 * z + w, r)
    | _, _, _, _ => none
  | _ => none

/-- Prepend one decoded character to a decoder result. -/
def contMap (next : Option (List Char × List Char)) (ch : Char) :
    Option (List Char × List Char) :=
  next.map (fun p => (ch :: p.1, p.2))

/-- Decode the low half of a surrogate pair whose high half decoded to `h`;
`next` continues decoding the rest of the string body. -/
def parseLowSur (next : List Char → Option (List Char × List Char)) (h : Nat) :
    List Char → Option (List Char × List Char)
  | '\\' :: 'u' :: r4 =>
    match readHex4 r4 with
    | none => none
    | some (lo, r5) =>
      if 56320 ≤ lo ∧ lo < 57344 then
        contMap (next r5) (Char.ofNat (65536 + 1024 * (h - 55296) + (lo - 56320)))
      else none
  | _ => none

/-- Decode one `\uXXXX` escape (possibly the high half of a surrogate pair). -/
def parseUEsc (next : List Char → Option (List Char × List Char))
    (r2 : List Char) : Option (List Char × List Char) :=
  match readHex4 r2 with
  | none => none
  | some (h, r3) =>
    if 55296 ≤ h ∧ h < 56320 then parseLowSur next h r3
    else contMap (next r3) (Char.ofNat h)

/-- Decode one backslash escape. -/
def parseEsc (next : List Char → Option (List Char × List Char)) :
    List Char → Option (List Char × List Char)
  | [] => none
  | e :: r2 =>
    if e = 'n' then contMap (next r2) '\n'
    else if e = 't' then contMap (next r2) '\t'
    else if e = 'r' then contMap (next r2) '\r'
    else if e = 'b' then contMap (next r2) (Char.ofNat 8)
    else if e = 'f' then contMap (next r2) (Char.ofNat 12)
    else if e = '"' then contMap (next r2) '"'
    else if e = '\\' then contMap (next r2) '\\'
    else if e = 'u' then parseUEsc next r2
    else none

/-- Decode a JSON string body up to (and including) the closing quote,
undoing `escChar`: short escapes, `\uXXXX`, and surrogate pairs.  The fuel
argument only serves termination; any fuel at least the decoded length
works. -/
def parseStrBody : Nat → List Char → Option (List Char × List Char)
  | _, [] => none
  | 0, c :: r => if c = '"' then some ([], r) else none
  | fuel + 1, c :: r =>
    if c = '"' then some ([], r)
    else if c = '\\' then parseEsc (parseStrBody fuel) r
    else contMap (parseStrBody fuel r) c

/-- Decode one serialized transaction. -/
def parseTx (l : List Char) : Option (Transaction × List Char) :=
  match parseLit "\x7b\"amount\": \"".data l with
  | none => none
  | some r1 =>
    match parseStrBody r1.length r1 with
    | none => none
    | some (am, r2) =>
      match parseLit ", \"receiver\": \"".data r2 with
      | none => none
      | some r3 =>
        match parseStrBody r3.length r3 with
        | none => none
        | some (rc, r4) =>
          match parseLit ", \"sender\": \"".data r4 with
          | none => none
          | some r5 =>
            match parseStrBody r5.length r5 with
            | none => none
            | some (sn, r6) =>
              match parseLit "\x7d".data r6 with
              | none => none
              | some r7 => some (⟨String.mk sn, String.mk rc, String.mk am⟩, r7)

/-- Decode the `", " tx`-separated tail of a serialized transaction list,
up to (and including) the closing bracket. -/
def parseTxsTail : Nat → List Char → Option (List Transaction × List Char)
  | _, ']' :: r => some ([], r)
  | fuel + 1, ',' :: ' ' :: r =>
    match parseTx r with
    | none => none
    | some (t, r') =>
      match parseTxsTail fuel r' with
      | none => none
      | some (ts, r'') => some (t :: ts, r'')
  | _, _ => none

/-- Decode a serialized transaction list. -/
def parseTxs (l : List Char) : Option (List Transaction × List Char) :=
  match parseLit "[]".data l with
  | some r => some ([], r)
  | none =>
    match parseLit "[".data l with
    | none => none
    | some r =>
      match parseTx r with
      | none => none
      | some (t, r') =>
        match parseTxsTail r'.length r' with
        | none => none
        | some (ts, r'') => some (t :: ts, r'')

/-- Decode a serialized block. -/
def parseBlock (l : List Char) : Option (Block × List Char) :=
  match parseLit "\x7b\"index\": ".data l with
  | none => none
  | some r1 =>
    match parseInt r1 with
    | none => none
    | some (idx, r2) =>
      match parseLit ", \"previous_hash\": \"".data r2 with
      | none => none
      | some r3 =>
        match parseStrBody r3.length r3 with
        | none => none
        | some (ph, r4) =>
          match parseLit ", \"proof\": ".data r4 with
          | none => none
          | some r5 =>
            match parseInt r5 with
            | none => none
            | some (pf, r6) =>
              match parseLit ", \"timestamp\": \"".data r6 with
              | none => none
              | some r7 =>
                match parseStrBody r7.length r7 with
                | none => none
                | some (ts, r8) =>
                  match parseLit ", \"transactions\": ".data r8 with
                  | none => none
                  | some r9 =>
                    match parseTxs r9 with
                    | none => none
                    | some (txs, r10) =>
                      match parseLit "\x7d".data r10 with
                      | none => none
                      | some r11 =>
                        some (⟨idx, String.mk ts, pf, String.mk ph, txs⟩, r11)

/-- Reference form of the decimal digits of a natural number,
most significant first. -/
def natChars (n : Nat) : List Char :=
  if n < 10 then [Nat.digitChar n]
  else natChars (n / 10) ++ [Nat.digitChar (n % 10)]
termination_by n
decreasing_by exact Nat.div_lt_self (by omega) (by omega)

/-! Theorems about the embedded program. -/

/-- C8: a freshly constructed ledger has exactly one block — index 1,
the construction timestamp, proof 1, previous hash `"0"`, no transactions —
and an empty pending pool. -/
theorem c8_genesis_state (ts : String) :
    (Blockchain.init ts).chain =
      [{ index := 1, timestamp := ts, proof := 1, previous_hash := "0",
          transactions := [] }] ∧
    (Blockchain.init ts).transactions = [] :=
  ⟨rfl, rfl⟩

/-- C6: `create_block` appends exactly one block to the chain; the new block
carries index `len(chain) + 1`, the pre-call pending pool (in order), and the
given proof, previous hash and timestamp; the pool is empty afterwards and
the peer set is untouched. -/
theorem c6_create_block_spec (bc : Blockchain) (pf : Int) (ph ts : String) :
    (create_block bc pf ph ts).2.chain = bc.chain ++ [(create_block bc pf ph ts).1] ∧
    (create_block bc pf ph ts).1.index = (bc.chain.length : Int) + 1 ∧
    (create_block bc pf ph ts).1.transactions = bc.transactions ∧
    (create_block bc pf ph ts).2.transactions = [] ∧
    (create_block bc pf ph ts).1.proof = pf ∧
    (create_block bc pf ph ts).1.previous_hash = ph ∧
    (create_block bc pf ph ts).1.timestamp = ts ∧
    (create_block bc pf ph ts).2.nodes = bc.nodes :=
  ⟨rfl, rfl, rfl, rfl, rfl, rfl, rfl, rfl⟩

/-- C10: a one-block chain always validates: the `while` loop of
`is_chain_valid` never runs, so none of the first block's fields (index,
previous hash, proof) are inspected against the genesis values. -/
theorem c10_singleton_always_valid (sha : String → String) (b : Block) :
    is_chain_valid sha [b] = some true :=
  rfl

/-- C4, counterexample: on the empty chain `is_chain_valid` does not return a
boolean — `previous_block = chain[0]` raises `IndexError` (the `none` of the
embedding). -/
theorem c4_counterexample : is_chain_valid shaId [] = none :=
  rfl

/-- C4, amended: on every NON-empty chain `is_chain_valid` terminates and
returns a boolean (the embedding is pure, so the input chain is not
mutated); the empty chain instead raises `IndexError` from `chain[0]`. -/
theorem c4_amended_nonempty_total (sha : String → String) (chain : List Block)
    (h : chain ≠ []) : ∃ b, is_chain_valid sha chain = some b := by
  cases chain with
  | nil => exact absurd rfl h
  | cons c rest => exact ⟨valid_from sha c rest, rfl⟩

/-- C4, witness: the amended statement applied to a concrete one-block chain. -/
theorem c4_witness : ([gen0] ≠ ([] : List Block)) ∧
    ∃ b, is_chain_valid shaId [gen0] = some b :=
  ⟨by decide, c4_amended_nonempty_total shaId [gen0] (by decide)⟩

/-- C5: whenever a solution exists, `proof_of_work` returns the smallest
positive integer satisfying the difficulty predicate against
`previous_proof`, every smaller positive candidate fails the predicate, and
the result does not depend on which termination proof is supplied
(determinism). -/
theorem c5_proof_of_work_least (sha : String → String) (previous_proof : Int)
    (h : ∃ n : Nat, 1 ≤ n ∧ check_proof sha previous_proof (n : Int) = true) :
    check_proof sha previous_proof (proof_of_work sha previous_proof h) = true ∧
    1 ≤ proof_of_work sha previous_proof h ∧
    (∀ m : Nat, 1 ≤ m → (m : Int) < proof_of_work sha previous_proof h →
      check_proof sha previous_proof (m : Int) = false) ∧
    ∀ h' : ∃ n : Nat, 1 ≤ n ∧ check_proof sha previous_proof (n : Int) = true,
      proof_of_work sha previous_proof h = proof_of_work sha previous_proof h' := by
  refine ⟨(Nat.find_spec h).2, ?_, ?_, ?_⟩
  · simp only [proof_of_work]
    exact_mod_cast (Nat.find_spec h).1
  · intro m hm hlt
    simp only [proof_of_work] at hlt
    have hmn : m < Nat.find h := by exact_mod_cast hlt
    have hnot := Nat.find_min h hmn
    simp only [hm, true_and, Bool.not_eq_true] at hnot
    exact hnot
  · intro h'
    rfl

/-- A termination certificate for the search at `previous_proof = 1` under
the degenerate hash `sha0`. -/
theorem pow_ex0 : ∃ n : Nat, 1 ≤ n ∧ check_proof sha0 1 (n : Int) = true :=
  ⟨1, by decide⟩

/-- C5, witness: the statement applied at `previous_proof = 1` with the
degenerate hash, whose termination hypothesis is discharged concretely. -/
theorem c5_witness :
    check_proof sha0 1 (proof_of_work sha0 1 pow_ex0) = true ∧
    1 ≤ proof_of_work sha0 1 pow_ex0 ∧
    (∀ m : Nat, 1 ≤ m → (m : Int) < proof_of_work sha0 1 pow_ex0 →
      check_proof sha0 1 (m : Int) = false) ∧
    ∀ h' : ∃ n : Nat, 1 ≤ n ∧ check_proof sha0 1 (n : Int) = true,
      proof_of_work sha0 1 pow_ex0 = proof_of_work sha0 1 h' :=
  c5_proof_of_work_least sha0 1 pow_ex0

/-- A termination certificate for the search against the genesis proof under
the degenerate hash `sha0`. -/
theorem pow_ex0' : ∃ n : Nat, 1 ≤ n ∧ check_proof sha0 gen0.proof (n : Int) = true :=
  ⟨1, by decide⟩

/-- The last element of `p :: l` is `lastD p l`. -/
theorem getLast?_cons_eq_lastD (p : Block) (l : List Block) :
    (p :: l).getLast? = some (lastD p l) := by
  induction l generalizing p with
  | nil => rfl
  | cons b bs ih => rw [List.getLast?_cons_cons, ih, lastD]

/-- Appending one block to the validation walk: the extended walk succeeds
exactly when the original walk succeeds and the appended block links
correctly to the last block walked. -/
theorem valid_from_append (sha : String → String) (p : Block) (l : List Block)
    (b : Block) :
    valid_from sha p (l ++ [b]) = (valid_from sha p l && linkOk sha (lastD p l) b) := by
  induction l generalizing p with
  | nil =>
    cases hb : b.previous_hash == hash sha p <;>
      cases hc : check_proof sha p.proof b.proof <;>
        simp [valid_from, linkOk, lastD, hb, hc, bne]
  | cons q rest ih =>
    by_cases h1 : q.previous_hash = hash sha p
    · cases h2 : check_proof sha p.proof q.proof
      · simp [valid_from, lastD, h1, h2]
      · simp [valid_from, lastD, h1, h2, ih]
    · simp [valid_from, lastD, bne, h1]

/-- A successful validation walk certifies the hash-link relation between
every pair of consecutive blocks. -/
theorem valid_from_hashlink (sha : String → String) (p : Block) (l : List Block)
    (h : valid_from sha p l = true) :
    List.Chain' (fun a b => b.previous_hash = hash sha a) (p :: l) := by
  induction l generalizing p with
  | nil => simp
  | cons b rest ih =>
    rw [List.chain'_cons]
    rw [valid_from] at h
    split at h
    · exact absurd h (by simp)
    · split at h
      · exact absurd h (by simp)
      · refine ⟨?_, ih b h⟩
        rename_i hne _
        simpa [bne] using hne

/-- C1: every ledger reachable from a fresh construction by alternating
`proof_of_work` and `create_block` (proof mined from the previous block's
proof, previous hash recomputed from the previous block) passes
`is_chain_valid`. -/
theorem c1_built_chain_valid (sha : String → String) (bc : Blockchain)
    (hb : Built sha bc) : is_chain_valid sha bc.chain = some true := by
  induction hb with
  | start ts => rfl
  | mine bc ts prev hb hprev hex ih =>
    obtain ⟨h, t, hchain⟩ : ∃ h t, bc.chain = h :: t := by
      cases hc : bc.chain with
      | nil =>
        rw [get_previous_block, hc] at hprev
        exact absurd hprev (by simp)
      | cons h t => exact ⟨h, t, rfl⟩
    have hlast : lastD h t = prev := by
      rw [get_previous_block, hchain, getLast?_cons_eq_lastD] at hprev
      exact Option.some.inj hprev
    have hvft : valid_from sha h t = true := by
      rw [hchain, is_chain_valid] at ih
      exact Option.some.inj ih
    show is_chain_valid sha (bc.chain ++ [_]) = some true
    rw [hchain, List.cons_append, is_chain_valid, valid_from_append, hlast, hvft,
      Bool.true_and, linkOk]
    have hcp : check_proof sha prev.proof (proof_of_work sha prev.proof hex) = true :=
      (Nat.find_spec hex).2
    simp [hcp]

/-- C1, witness: a concrete two-block ledger — fresh construction followed by
one mine step under the degenerate hash — validates. -/
theorem c1_witness :
    is_chain_valid sha0
      ((create_block (Blockchain.init "t0") (proof_of_work sha0 gen0.proof pow_ex0')
          (hash sha0 gen0) "t1").2).chain = some true :=
  c1_built_chain_valid sha0 _
    (Built.mine (Blockchain.init "t0") "t1" gen0 (Built.start "t0") (by decide) pow_ex0')

/-- Lemma: `is_chain_valid` raises (returns `none`) exactly on the empty chain. -/
theorem is_chain_valid_none_iff (sha : String → String) (c : List Block) :
    is_chain_valid sha c = none ↔ c = [] := by
  cases c <;> simp [is_chain_valid]

/-- Behaviour of the peer-scanning loop: under the peer contract (reported
length = element count) and a non-negative running maximum, the loop never
raises; it ends with no candidate exactly when it started with none and no
response beats the running maximum while validating; and any final candidate
is either the initial one or a fetched chain that validated and is strictly
longer than the initial maximum. -/
theorem scan_peers_spec (sha : String → String) (rs : List FetchResult)
    (best : Option (List Block)) (maxL : Int)
    (hc : ∀ len c, FetchResult.success len c ∈ rs → len = (c.length : Int))
    (hmax : 0 ≤ maxL) :
    ∃ best' maxL', scan_peers sha rs best maxL = some (best', maxL') ∧
      (best' = none → best = none ∧ maxL' = maxL ∧
        ∀ len c, FetchResult.success len c ∈ rs →
          ¬(maxL < len ∧ is_chain_valid sha c = some true)) ∧
      ∀ c', best' = some c' → best = some c' ∨
        ((∃ len, FetchResult.success len c' ∈ rs) ∧
          is_chain_valid sha c' = some true ∧ maxL < (c'.length : Int)) := by
  induction rs generalizing best maxL with
  | nil =>
    exact ⟨best, maxL, rfl, fun hb => ⟨hb, rfl, by simp⟩, fun c' hc' => Or.inl hc'⟩
  | cons r rest ih =>
    cases r with
    | failure =>
      obtain ⟨b', m', hscan, hnone, hsome⟩ :=
        ih best maxL (fun len c hm => hc len c (List.mem_cons_of_mem _ hm)) hmax
      refine ⟨b', m', by rw [scan_peers]; exact hscan, ?_, ?_⟩
      · intro hb
        obtain ⟨h1, h2, h3⟩ := hnone hb
        refine ⟨h1, h2, fun len c hm => ?_⟩
        rcases List.mem_cons.mp hm with heq | hm'
        · exact absurd heq (by simp)
        · exact h3 len c hm'
      · intro c' hc'
        rcases hsome c' hc' with h | ⟨⟨l2, hmem⟩, hv2, hlt2⟩
        · exact Or.inl h
        · exact Or.inr ⟨⟨l2, List.mem_cons_of_mem _ hmem⟩, hv2, hlt2⟩
    | success len c =>
      have hlen : len = (c.length : Int) := hc len c (List.mem_cons_self _ _)
      have hcrest : ∀ l2 c2, FetchResult.success l2 c2 ∈ rest → l2 = (c2.length : Int) :=
        fun l2 c2 hm => hc l2 c2 (List.mem_cons_of_mem _ hm)
      by_cases hgt : len > maxL
      · rcases hval : is_chain_valid sha c with _ | bv
        · exfalso
          have hcn : c = [] := (is_chain_valid_none_iff sha c).mp hval
          rw [hcn] at hlen
          simp at hlen
          omega
        · cases bv with
          | true =>
            obtain ⟨b', m', hscan, hnone, hsome⟩ :=
              ih (some c) len hcrest (le_trans hmax (le_of_lt hgt))
            refine ⟨b', m', ?_, ?_, ?_⟩
            · rw [scan_peers, if_pos hgt, hval]
              exact hscan
            · intro hb
              exact absurd (hnone hb).1 (by simp)
            · intro c' hc'
              rcases hsome c' hc' with h | ⟨⟨l2, hmem⟩, hv2, hlt2⟩
              · have hcc : c' = c := (Option.some.inj h).symm
                subst hcc
                exact Or.inr ⟨⟨len, List.mem_cons_self _ _⟩, hval, hlen ▸ hgt⟩
              · exact Or.inr
                  ⟨⟨l2, List.mem_cons_of_mem _ hmem⟩, hv2, lt_trans hgt hlt2⟩
          | false =>
            obtain ⟨b', m', hscan, hnone, hsome⟩ := ih best maxL hcrest hmax
            refine ⟨b', m', ?_, ?_, ?_⟩
            · rw [scan_peers, if_pos hgt, hval]
              exact hscan
            · intro hb
              obtain ⟨h1, h2, h3⟩ := hnone hb
              refine ⟨h1, h2, fun l2 c2 hm => ?_⟩
              rcases List.mem_cons.mp hm with heq | hm'
              · obtain ⟨hl, hcv⟩ := FetchResult.success.inj heq
                subst hl; subst hcv
                rintro ⟨-, hv⟩
                rw [hval] at hv
                exact absurd (Option.some.inj hv) (by simp)
              · exact h3 l2 c2 hm'
            · intro c' hc'
              rcases hsome c' hc' with h | ⟨⟨l2, hmem⟩, hv2, hlt2⟩
              · exact Or.inl h
              · exact Or.inr ⟨⟨l2, List.mem_cons_of_mem _ hmem⟩, hv2, hlt2⟩
      · obtain ⟨b', m', hscan, hnone, hsome⟩ := ih best maxL hcrest hmax
        refine ⟨b', m', ?_, ?_, ?_⟩
        · rw [scan_peers, if_neg hgt]
          exact hscan
        · intro hb
          obtain ⟨h1, h2, h3⟩ := hnone hb
          refine ⟨h1, h2, fun l2 c2 hm => ?_⟩
          rcases List.mem_cons.mp hm with heq | hm'
          · obtain ⟨hl, hcv⟩ := FetchResult.success.inj heq
            subst hl; subst hcv
            rintro ⟨hlt, -⟩
            exact hgt hlt
          · exact h3 l2 c2 hm'
        · intro c' hc'
          rcases hsome c' hc' with h | ⟨⟨l2, hmem⟩, hv2, hlt2⟩
          · exact Or.inl h
          · exact Or.inr ⟨⟨l2, List.mem_cons_of_mem _ hmem⟩, hv2, hlt2⟩

/-- C2: under the peer contract (each successful response reports a length
equal to its chain's element count), `replace_chain` never raises and
returns `true` with the chain replaced by a fetched candidate iff some
successfully fetched candidate is strictly longer than the local chain and
validates; otherwise it returns `false` and the state is exactly unchanged.
In particular equal-length candidates never cause replacement. -/
theorem c2_replace_chain_spec (sha : String → String) (bc : Blockchain)
    (responses : List FetchResult)
    (hc : ∀ len c, FetchResult.success len c ∈ responses → len = (c.length : Int)) :
    ∃ replaced bc', replace_chain sha bc responses = some (replaced, bc') ∧
      (replaced = true ↔ ∃ len c, FetchResult.success len c ∈ responses ∧
        (bc.chain.length : Int) < len ∧ is_chain_valid sha c = some true) ∧
      (replaced = true → ∃ c, (∃ len, FetchResult.success len c ∈ responses) ∧
        is_chain_valid sha c = some true ∧ bc.chain.length < c.length ∧
        bc' = { bc with chain := c }) ∧
      (replaced = false → bc' = bc) := by
  obtain ⟨b', m', hscan, hnone, hsome⟩ :=
    scan_peers_spec sha responses none (bc.chain.length : Int) hc (Int.ofNat_nonneg _)
  cases b' with
  | none =>
    refine ⟨false, bc, ?_, ?_, by simp, fun _ => rfl⟩
    · rw [replace_chain, hscan]
    · refine iff_of_false (by simp) ?_
      rintro ⟨len, c, hmem, hlt, hv⟩
      exact (hnone rfl).2.2 len c hmem ⟨hlt, hv⟩
  | some c' =>
    rcases hsome c' rfl with h | ⟨⟨len0, hmem⟩, hv, hlt⟩
    · exact absurd h (by simp)
    · have hne : c' ≠ [] := by
        intro he
        rw [he] at hv
        exact absurd hv (by simp [is_chain_valid])
      have hemp : c'.isEmpty = false := by
        simpa [List.isEmpty_iff] using hne
      refine ⟨true, { bc with chain := c' }, ?_, ?_, ?_, by simp⟩
      · rw [replace_chain, hscan]
        simp [hemp]
      · simp only [true_iff]
        refine ⟨len0, c', hmem, ?_, hv⟩
        rw [hc len0 c' hmem]
        exact_mod_cast hlt
      · intro _
        exact ⟨c', ⟨len0, hmem⟩, hv, by exact_mod_cast hlt, rfl⟩

/-- C2, witness: the statement applied to a concrete ledger with no peer
responses (the contract hypothesis discharged concretely): resolution
returns `false` and leaves the state unchanged. -/
theorem c2_witness :
    ∃ replaced bc', replace_chain sha0 (Blockchain.init "t0") [] = some (replaced, bc') ∧
      (replaced = true ↔ ∃ len c, FetchResult.success len c ∈ ([] : List FetchResult) ∧
        ((Blockchain.init "t0").chain.length : Int) < len ∧
        is_chain_valid sha0 c = some true) ∧
      (replaced = true → ∃ c, (∃ len, FetchResult.success len c ∈ ([] : List FetchResult)) ∧
        is_chain_valid sha0 c = some true ∧
        (Blockchain.init "t0").chain.length < c.length ∧
        bc' = { Blockchain.init "t0" with chain := c }) ∧
      (replaced = false → bc' = Blockchain.init "t0") :=
  c2_replace_chain_spec sha0 (Blockchain.init "t0") [] (by simp)

/-- C9: acceptance in `replace_chain` is decided by the REPORTED length
field, not by counting the fetched chain: any successful response whose
reported length exceeds the local chain's length and whose chain validates
is installed, regardless of how many blocks the fetched chain actually
contains. -/
theorem c9_reported_length_decides (sha : String → String) (bc : Blockchain)
    (len : Int) (c : List Block) (hlen : (bc.chain.length : Int) < len)
    (hv : is_chain_valid sha c = some true) :
    replace_chain sha bc [FetchResult.success len c] = some (true, { bc with chain := c }) := by
  have hne : c ≠ [] := by
    intro he
    rw [he] at hv
    exact absurd hv (by simp [is_chain_valid])
  have hemp : c.isEmpty = false := by
    simpa [List.isEmpty_iff] using hne
  rw [replace_chain, scan_peers, if_pos hlen, hv]
  simp [scan_peers, hemp]

/-- C9, witness: a ledger of length 1 accepts a fetched chain that ALSO has
length 1 (so is not actually longer) because the response lies and reports
length 5. -/
theorem c9_witness :
    [blkX].length ≤ (Blockchain.init "t0").chain.length ∧
    replace_chain shaId (Blockchain.init "t0") [FetchResult.success 5 [blkX]] =
      some (true, { Blockchain.init "t0" with chain := [blkX] }) :=
  ⟨by decide, c9_reported_length_decides shaId (Blockchain.init "t0") 5 [blkX]
    (by decide) (by decide)⟩

/-- C3, counterexample: `create_block` is a public operation taking
`previous_hash` as a caller-supplied argument, so it does not preserve the
hash-link invariant: starting from a fresh ledger (where the invariant
holds) and calling it with the string `"garbage"` yields a chain whose
second block's `previous_hash` is not the hash of the first. -/
theorem c3_counterexample :
    hashLinkInv shaId (Blockchain.init "t0").chain ∧
    canonicalIdx (Blockchain.init "t0").chain ∧
    ¬ hashLinkInv shaId ((create_block (Blockchain.init "t0") 1 "garbage" "t1").2).chain := by
  refine ⟨?_, ?_, ?_⟩
  · simp [hashLinkInv, Blockchain.init, create_block]
  · decide
  · intro hinv
    simp only [hashLinkInv, Blockchain.init, create_block] at hinv
    rw [List.nil_append, List.singleton_append, List.chain'_cons] at hinv
    exact absurd hinv.1 (by decide)

/-- C3, amended: the invariant is preserved by `create_block` only when the
caller passes `previous_hash = hash(previous_block)` (as the mining flow
does; canonical indices are also needed for the index half, and are
maintained); `replace_chain` establishes the hash-link half for any
candidate it accepts — accepted candidates pass `is_chain_valid` — but the
index half is NOT validated and can be violated by an accepted candidate. -/
theorem c3_amended_preservation (sha : String → String) :
    (∀ (bc : Blockchain) (prev : Block) (pf : Int) (ts : String),
      get_previous_block bc = some prev →
      canonicalIdx bc.chain → hashLinkInv sha bc.chain →
      canonicalIdx ((create_block bc pf (hash sha prev) ts).2.chain) ∧
      hashLinkInv sha ((create_block bc pf (hash sha prev) ts).2.chain)) ∧
    (∀ chain, is_chain_valid sha chain = some true → hashLinkInv sha chain) := by
  constructor
  · intro bc prev pf ts hprev hcan hlink
    constructor
    · show canonicalIdx (bc.chain ++ [_])
      simp only [canonicalIdx] at hcan ⊢
      rw [List.map_append, List.length_append, List.length_singleton,
        List.range'_1_concat, List.map_append, hcan]
      simp [create_block, Int.ofNat_add]
      omega
    · show hashLinkInv sha (bc.chain ++ [_])
      rw [hashLinkInv, List.chain'_append]
      refine ⟨hlink, List.chain'_singleton _, ?_⟩
      intro x hx y hy
      rw [get_previous_block] at hprev
      rw [hprev] at hx
      rw [List.head?_cons] at hy
      rw [Option.mem_some_iff] at hx hy
      subst hx
      subst hy
      rfl
  · intro chain hv
    cases chain with
    | nil => exact absurd hv (by simp [is_chain_valid])
    | cons h t =>
      rw [is_chain_valid] at hv
      exact valid_from_hashlink sha h t (Option.some.inj hv)

/-- C3, witness: both halves of the amended statement applied concretely —
one mining-style `create_block` step on a fresh ledger and one validated
singleton chain. -/
theorem c3_witness :
    (canonicalIdx ((create_block (Blockchain.init "t0") 9 (hash shaId gen0) "t1").2.chain) ∧
      hashLinkInv shaId ((create_block (Blockchain.init "t0") 9 (hash shaId gen0) "t1").2.chain)) ∧
    hashLinkInv shaId [blkX] :=
  ⟨(c3_amended_preservation shaId).1 (Blockchain.init "t0") gen0 9 "t1" (by decide)
      (by decide) (by simp [hashLinkInv, Blockchain.init, create_block]),
    (c3_amended_preservation shaId).2 [blkX] (by decide)⟩

/-! Round-trip lemmas: the decoders invert the canonical serialization -/

/-- Lemma: `parseLit` consumes exactly the expected literal. -/
theorem parseLit_append (lit r : List Char) : parseLit lit (lit ++ r) = some r := by
  induction lit with
  | nil => rfl
  | cons c cs ih => simp [parseLit, ih]

/-- Lemma: `takeWhile` and `dropWhile` split an all-`P` chunk followed by a
non-`P` head exactly at the boundary. -/
theorem takeWhile_dropWhile_append (P : Char → Bool) (ds r : List Char)
    (hall : ∀ c ∈ ds, P c = true) (hr : ∀ c, r.head? = some c → P c = false) :
    (ds ++ r).takeWhile P = ds ∧ (ds ++ r).dropWhile P = r := by
  induction ds with
  | nil =>
    cases r with
    | nil => simp
    | cons c r' =>
      have hc := hr c rfl
      simp [List.takeWhile_cons, List.dropWhile_cons, hc]
  | cons d ds ih =>
    have hd := hall d (List.mem_cons_self _ _)
    have hrest := ih (fun c hc => hall c (List.mem_cons_of_mem _ hc))
    simp [List.takeWhile_cons, List.dropWhile_cons, hd, hrest.1, hrest.2]

/-- Characters emitted by `Nat.digitChar` below 10 are decimal digits. -/
theorem digitChar_isDigit : ∀ d, d < 10 → (Nat.digitChar d).isDigit = true := by decide

/-- Code of `Nat.digitChar` below 10. -/
theorem digitChar_toNat : ∀ d, d < 10 → (Nat.digitChar d).toNat = d + 48 := by decide

/-- Fuelled core of `Nat.toDigits` agrees with `natChars`. -/
theorem toDigitsCore_eq_natChars (fuel : Nat) : ∀ (n : Nat) (acc : List Char),
    n < fuel → Nat.toDigitsCore 10 fuel n acc = natChars n ++ acc := by
  induction fuel with
  | zero => omega
  | succ fuel ih =>
    intro n acc h
    rw [Nat.toDigitsCore]
    by_cases h10 : n / 10 = 0
    · rw [if_pos h10, natChars, if_pos (by omega), Nat.mod_eq_of_lt (by omega)]
      rfl
    · have hlt : n / 10 < fuel := by omega
      rw [if_neg h10, ih (n / 10) (Nat.digitChar (n % 10) :: acc) hlt]
      conv_rhs => rw [natChars]
      rw [if_neg (show ¬ n < 10 by omega), List.append_assoc]
      rfl

/-- Lemma: `Nat.repr` produces exactly `natChars`. -/
theorem natRepr_data (n : Nat) : (Nat.repr n).data = natChars n := by
  rw [Nat.repr, Nat.toDigits,
    toDigitsCore_eq_natChars (n + 1) n [] (Nat.lt_succ_self n), List.append_nil]
  rfl

/-- Lemma: `natChars` is never empty. -/
theorem natChars_ne_nil (n : Nat) : natChars n ≠ [] := by
  rw [natChars]
  split <;> simp

/-- Every character of `natChars` is a decimal digit. -/
theorem natChars_all_digits (n : Nat) : ∀ c ∈ natChars n, c.isDigit = true := by
  induction n using Nat.strong_induction_on with
  | _ n ih =>
    rw [natChars]
    split
    · intro c hc
      rw [List.mem_singleton] at hc
      subst hc
      exact digitChar_isDigit n (by omega)
    · intro c hc
      rw [List.mem_append, List.mem_singleton] at hc
      rcases hc with hc | hc
      · exact ih (n / 10) (Nat.div_lt_self (by omega) (by omega)) c hc
      · subst hc
        exact digitChar_isDigit _ (Nat.mod_lt _ (by omega))

/-- Lemma: `digitsVal` over an appended final digit. -/
theorem digitsVal_append_singleton (l : List Char) (c : Char) :
    digitsVal (l ++ [c]) = 10 * digitsVal l + (c.toNat - 48) := by
  simp [digitsVal, List.foldl_append]

/-- Lemma: `digitsVal` recovers the number from its digits. -/
theorem digitsVal_natChars (n : Nat) : digitsVal (natChars n) = n := by
  induction n using Nat.strong_induction_on with
  | _ n ih =>
    rw [natChars]
    split
    · have := digitChar_toNat n (by omega)
      simp [digitsVal, this]
    · rw [digitsVal_append_singleton,
        ih (n / 10) (Nat.div_lt_self (by omega) (by omega)),
        digitChar_toNat _ (Nat.mod_lt _ (by omega))]
      omega

/-- Splitting `String` append at the character level. -/
theorem string_data_append (s t : String) : (s ++ t).data = s.data ++ t.data := by
  cases s
  cases t
  rfl

/-- Lemma: `parseInt` inverts `toString : Int → String` whenever the following
character (if any) is not a digit. -/
theorem parseInt_round (i : Int) (r : List Char)
    (hr : ∀ c, r.head? = some c → c.isDigit = false) :
    parseInt ((toString i).data ++ r) = some (i, r) := by
  cases i with
  | ofNat m =>
    have hdata : (toString (Int.ofNat m)).data = natChars m := by
      show (Nat.repr m).data = natChars m
      exact natRepr_data m
    rw [hdata]
    obtain ⟨c, cs, hcc⟩ := List.exists_cons_of_ne_nil (natChars_ne_nil m)
    have hall := natChars_all_digits m
    rw [hcc] at hall ⊢
    have hcd : c.isDigit = true := hall c (List.mem_cons_self _ _)
    have hcne : ¬(c = '-') := by
      intro h
      rw [h] at hcd
      exact absurd hcd (by decide)
    have hsplit := takeWhile_dropWhile_append Char.isDigit (c :: cs) r hall hr
    rw [List.cons_append, parseInt, if_neg hcne, ← List.cons_append, hsplit.1, hsplit.2,
      if_neg (by simp)]
    rw [← hcc, digitsVal_natChars]
    rfl
  | negSucc m =>
    have hdata : (toString (Int.negSucc m)).data = '-' :: natChars (m + 1) := by
      show (( "-" : String) ++ Nat.repr (m + 1)).data = _
      rw [string_data_append, natRepr_data]
      rfl
    rw [hdata]
    have hall := natChars_all_digits (m + 1)
    have hsplit := takeWhile_dropWhile_append Char.isDigit (natChars (m + 1)) r hall hr
    rw [List.cons_append, parseInt, if_pos rfl, hsplit.1, hsplit.2,
      if_neg (natChars_ne_nil (m + 1)), digitsVal_natChars]
    rfl

/-- Lemma: `readHexDigit` inverts `Nat.digitChar` on hex digits. -/
theorem readHexDigit_digitChar : ∀ d, d < 16 → readHexDigit (Nat.digitChar d) = some d := by
  decide

/-- Lemma: `readHex4` inverts `hex4` below `0x10000`. -/
theorem readHex4_hex4 (n : Nat) (hn : n < 65536) (r : List Char) :
    readHex4 (hex4 n ++ r) = some (n, r) := by
  have h1 := readHexDigit_digitChar (n / 4096 % 16) (Nat.mod_lt _ (by omega))
  have h2 := readHexDigit_digitChar (n / 256 % 16) (Nat.mod_lt _ (by omega))
  have h3 := readHexDigit_digitChar (n / 16 % 16) (Nat.mod_lt _ (by omega))
  have h4 := readHexDigit_digitChar (n % 16) (Nat.mod_lt _ (by omega))
  have hval : 4096 * (n / 4096 % 16) + 256 * (n / 256 % 16) + 16 * (n / 16 % 16) + n % 16 = n := by
    omega
  simp [hex4, readHex4, h1, h2, h3, h4, hval]

/-- The unicode scalar value range of a `Char`. -/
theorem char_valid_cases (c : Char) :
    c.toNat < 55296 ∨ (57343 < c.toNat ∧ c.toNat < 1114112) := c.valid

/-- One decoding step of `parseStrBody` undoes one `escChar`. -/
theorem parseStrBody_escChar (f : Nat) (c : Char) (u : List Char) :
    parseStrBody (f + 1) (escChar c ++ u) =
      (parseStrBody f u).map (fun p => (c :: p.1, p.2)) := by
  have hval := char_valid_cases c
  by_cases h1 : c = '"'
  · subst h1; simp [escChar, parseStrBody, parseEsc, contMap]
  by_cases h2 : c = '\\'
  · subst h2; simp [escChar, parseStrBody, parseEsc, contMap]
  by_cases h3 : c = '\n'
  · subst h3; simp [escChar, parseStrBody, parseEsc, contMap]
  by_cases h4 : c = '\t'
  · subst h4; simp [escChar, parseStrBody, parseEsc, contMap]
  by_cases h5 : c = '\r'
  · subst h5; simp [escChar, parseStrBody, parseEsc, contMap]
  by_cases h6 : c.toNat = 8
  · rw [escChar, if_neg h1, if_neg h2, if_neg h3, if_neg h4, if_neg h5, if_pos h6,
      ← Char.ofNat_toNat c, h6]
    simp [parseStrBody, parseEsc, contMap]
  by_cases h7 : c.toNat = 12
  · rw [escChar, if_neg h1, if_neg h2, if_neg h3, if_neg h4, if_neg h5, if_neg h6, if_pos h7,
      ← Char.ofNat_toNat c, h7]
    simp [parseStrBody, parseEsc, contMap]
  by_cases h8 : 32 ≤ c.toNat ∧ c.toNat ≤ 126
  · rw [escChar, if_neg h1, if_neg h2, if_neg h3, if_neg h4, if_neg h5, if_neg h6, if_neg h7,
      if_pos h8, List.singleton_append, parseStrBody]
    rw [if_neg h1, if_neg h2, contMap]
  by_cases h9 : c.toNat < 65536
  · rw [escChar, if_neg h1, if_neg h2, if_neg h3, if_neg h4, if_neg h5, if_neg h6, if_neg h7,
      if_neg h8, if_pos h9]
    have hhex := readHex4_hex4 c.toNat h9 u
    have hns : ¬(55296 ≤ c.toNat ∧ c.toNat < 56320) := by omega
    simp [parseStrBody, parseEsc, parseUEsc, contMap, hhex, hns]
  · rw [escChar, if_neg h1, if_neg h2, if_neg h3, if_neg h4, if_neg h5, if_neg h6, if_neg h7,
      if_neg h8, if_neg h9]
    have hrange : 57343 < c.toNat ∧ c.toNat < 1114112 := by omega
    have hH : 55296 + (c.toNat - 65536) / 1024 < 65536 := by omega
    have hL : 56320 + (c.toNat - 65536) % 1024 < 65536 := by omega
    have hhexH := readHex4_hex4 (55296 + (c.toNat - 65536) / 1024) hH
      ('\\' :: 'u' :: (hex4 (56320 + (c.toNat - 65536) % 1024) ++ u))
    have hhexL := readHex4_hex4 (56320 + (c.toNat - 65536) % 1024) hL u
    have hsur : 55296 ≤ 55296 + (c.toNat - 65536) / 1024 ∧
        55296 + (c.toNat - 65536) / 1024 < 56320 := by omega
    have hlo : 56320 ≤ 56320 + (c.toNat - 65536) % 1024 ∧
        56320 + (c.toNat - 65536) % 1024 < 57344 := by omega
    simp only [List.cons_append, List.append_assoc, List.nil_append]
    rw [parseStrBody, if_neg (by decide), if_pos rfl, parseEsc]
    rw [if_neg (by decide), if_neg (by decide), if_neg (by decide), if_neg (by decide),
      if_neg (by decide), if_neg (by decide), if_neg (by decide), if_pos rfl]
    rw [parseUEsc, hhexH]
    simp only [hsur, and_self, if_true]
    rw [parseLowSur, hhexL]
    simp only [hlo, and_self, if_true]
    rw [contMap]
    have hback : 65536 + 1024 * (55296 + (c.toNat - 65536) / 1024 - 55296) +
        (56320 + (c.toNat - 65536) % 1024 - 56320) = c.toNat := by omega
    rw [hback, Char.ofNat_toNat]

/-- Lemma: `parseStrBody` decodes an escaped string followed by its closing quote,
given enough fuel. -/
theorem parseStrBody_escList (ds : List Char) : ∀ (fuel : Nat) (t : List Char),
    ds.length ≤ fuel → parseStrBody fuel (escList ds ++ '"' :: t) = some (ds, t) := by
  induction ds with
  | nil =>
    intro fuel t _
    cases fuel <;> simp [escList, parseStrBody]
  | cons c ds ih =>
    intro fuel t h
    cases fuel with
    | zero => simp at h
    | succ f =>
      rw [escList, List.append_assoc, parseStrBody_escChar f c (escList ds ++ '"' :: t),
        ih f t (by simp at h; omega)]
      rfl

/-- Every character escapes to at least one character. -/
theorem escChar_length (c : Char) : 1 ≤ (escChar c).length := by
  unfold escChar
  split_ifs <;> simp [hex4]

/-- Escaping does not shorten a string. -/
theorem escList_length (s : List Char) : s.length ≤ (escList s).length := by
  induction s with
  | nil => simp [escList]
  | cons c cs ih =>
    have := escChar_length c
    simp only [escList, List.length_append, List.length_cons]
    omega

/-- The fuel `parseTx`/`parseBlock` actually pass (the input length) always
suffices for the string decoder. -/
theorem parseStrBody_round (ds t : List Char) :
    parseStrBody (escList ds ++ '"' :: t).length (escList ds ++ '"' :: t) = some (ds, t) := by
  refine parseStrBody_escList ds _ t ?_
  have := escList_length ds
  simp only [List.length_append, List.length_cons]
  omega

/-- Repacking the characters of a string. -/
theorem string_mk_data (s : String) : String.mk s.data = s := by
  cases s
  rfl

/-- Lemma: `parseTx` inverts `encTxL`. -/
theorem parseTx_enc (t : Transaction) (r : List Char) :
    parseTx (encTxL t ++ r) = some (t, r) := by
  rw [encTxL]
  simp only [List.append_assoc, List.cons_append, List.nil_append, parseTx.eq_def, parseLit,
    ite_true, ite_false, parseStrBody_round, string_mk_data]

/-- A serialized transaction starts with an opening brace, so the lookahead
for the closing bracket of an empty list fails on it. -/
theorem parseLit_bracket_tx (t : Transaction) (X : List Char) :
    parseLit (']' :: []) (encTxL t ++ X) = none := by
  rw [encTxL]
  simp only [List.append_assoc, List.cons_append, List.nil_append, parseLit, ite_true, ite_false]
  rw [if_neg (by decide)]

/-- One serialized transaction per element, at least one character each. -/
theorem encTxsTail_length (ts : List Transaction) :
    ts.length ≤ (encTxsTail ts).length := by
  induction ts with
  | nil => simp [encTxsTail]
  | cons t ts ih =>
    rw [encTxsTail]
    simp only [List.length_append, List.length_cons]
    omega

/-- Lemma: `parseTxsTail` inverts `encTxsTail` up to the closing bracket, given
enough fuel. -/
theorem parseTxsTail_enc (ts : List Transaction) : ∀ (fuel : Nat) (r : List Char),
    ts.length ≤ fuel → parseTxsTail fuel (encTxsTail ts ++ ']' :: r) = some (ts, r) := by
  induction ts with
  | nil =>
    intro fuel r _
    rw [encTxsTail, List.nil_append]
    simp [parseTxsTail]
  | cons t ts ih =>
    intro fuel r h
    cases fuel with
    | zero => simp at h
    | succ f =>
      rw [encTxsTail]
      have hsep : (", ".data : List Char) = ',' :: ' ' :: [] := rfl
      rw [hsep]
      simp only [List.append_assoc, List.cons_append, List.nil_append]
      have hrec := ih f r (by simp at h; omega)
      simp [parseTxsTail, parseTx_enc, hrec]

/-- The fuel `parseTxs` actually passes always suffices for the tail
decoder. -/
theorem parseTxsTail_round (ts : List Transaction) (r : List Char) :
    parseTxsTail (encTxsTail ts ++ ']' :: r).length (encTxsTail ts ++ ']' :: r) =
      some (ts, r) := by
  refine parseTxsTail_enc ts _ r ?_
  have := encTxsTail_length ts
  simp only [List.length_append, List.length_cons]
  omega

/-- Lemma: `parseTxs` inverts `encTxsL`. -/
theorem parseTxs_enc (ts : List Transaction) (r : List Char) :
    parseTxs (encTxsL ts ++ r) = some (ts, r) := by
  cases ts with
  | nil =>
    rw [encTxsL]
    simp only [List.append_assoc, List.cons_append, List.nil_append, parseTxs.eq_def,
      parseLit, ite_true, ite_false]
  | cons t ts =>
    rw [encTxsL]
    simp only [List.append_assoc, List.cons_append, List.nil_append, parseTxs.eq_def,
      parseLit, ite_true, ite_false, parseLit_bracket_tx, parseTx_enc, parseTxsTail_round]
    rw [if_neg (by decide)]

/-- Lemma: `parseInt` before a comma (the separator that follows both integer
fields of a serialized block). -/
theorem parseInt_comma (i : Int) (Y : List Char) :
    parseInt ((toString i).data ++ (',' :: Y)) = some (i, ',' :: Y) := by
  refine parseInt_round i (',' :: Y) ?_
  intro c hc
  simp only [List.head?_cons, Option.some.injEq] at hc
  subst hc
  decide

/-- Lemma: `parseBlock` inverts the canonical block serialization `encBlockL`. -/
theorem parseBlock_enc (b : Block) (r : List Char) :
    parseBlock (encBlockL b ++ r) = some (b, r) := by
  rw [encBlockL]
  simp only [List.append_assoc, List.cons_append, List.nil_append, parseBlock.eq_def,
    parseLit, ite_true, ite_false, parseInt_comma, parseStrBody_round, parseTxs_enc,
    string_mk_data]

/-- The canonical serialization is injective: two blocks with the same
serialization are field-for-field identical. -/
theorem encBlockL_inj (b1 b2 : Block) (h : encBlockL b1 = encBlockL b2) : b1 = b2 := by
  have h1 := parseBlock_enc b1 []
  have h2 := parseBlock_enc b2 []
  rw [List.append_nil] at h1 h2
  rw [h, h2] at h1
  exact (Prod.mk.injEq _ _ _ _ ▸ Option.some.inj h1).1.symm

/-- C7: under a collision-free hash primitive (injectivity standing in for
SHA-256 collision resistance), two blocks hash equal iff they are
field-for-field identical — transaction order included, since the canonical
serialization keeps list order; field insertion order cannot matter because
`json.dumps(…, sort_keys=True)` writes the keys in sorted order. -/
theorem c7_hash_iff_eq (sha : String → String) (hinj : Function.Injective sha)
    (b1 b2 : Block) : hash sha b1 = hash sha b2 ↔ b1 = b2 := by
  constructor
  · intro h
    have h2 : encBlock b1 = encBlock b2 := hinj h
    exact encBlockL_inj b1 b2 (congrArg String.data h2)
  · intro h
    rw [h]

/-- C7, witness: the statement applied to the identity hash stand-in (whose
injectivity is discharged definitionally) at two concrete distinct blocks. -/
theorem c7_witness : hash shaId gen0 = hash shaId blkX ↔ gen0 = blkX :=
  c7_hash_iff_eq shaId (fun _ _ h => h) gen0 blkX

end Cryptomark
